import Mathlib

/-!
# diff_debian_pkgs

A shallow embedding of `diff_debian_pkgs/main.go`: the listing parser
(`getMap`, `splitPkgNameAndArch`), the differ (`diffVersionInfo`), the
classifier (`compare`, `diff`) and the reporter (`main` with its two
`getSortedKeys` helpers), followed by the properties established for them.

Modelling choices.

* A Go `map[string]T` is a finite partial function.  It is embedded as an
  association list with pairwise distinct keys (`AList`): `m[k]` with the
  comma-ok form is `AList.lookup k m`, the assignment `m[k] = v` is
  `AList.insert k v m`, and `for k, v := range m` is a left fold over
  `m.entries`.  Go leaves the iteration order unspecified; every order is an
  `AList`, and the theorems hold for every `AList`.
* A Go `string` holding text is a Lean `String`; `[2]string` is a pair.
* A file is what `os.Open` and the `bufio.Scanner` deliver: either an open
  error, or the lines handed out by `scanner.Text()` together with the final
  value of `scanner.Err()`.  The file system is a function from paths to such
  outcomes.
* The external command `dpkg --compare-versions` is a parameter, a function
  from the two versions to the error returned by `Run` (`none` for `nil`); a
  command that does not return is outside the model.
* Standard output is the list of the lines written by `fmt.Println`, each
  without its final newline; `log.Fatal` is recorded with its error and writes
  nothing to standard output.
-/

namespace DiffDebianPkgs

/-! ## Data model -/

/-- Go `map[string]string`. -/
abbrev StrMap := AList (fun _ : String => String)

/-- Go `map[string][2]string`; the array `[2]string{x, y}` is the pair `(x, y)`. -/
abbrev PairMap := AList (fun _ : String => String × String)

/-! ## Library functions used by the parser -/

/-- Go `unicode.IsSpace`: the Latin-1 spaces `\t \n \v \f \r`, space, U+0085,
U+00A0, and beyond Latin-1 the code points with the `White_Space` property. -/
def isSpace (c : Char) : Bool :=
  let r := c.toNat
  (9 ≤ r && r ≤ 13) || r == 0x20 || r == 0x85 || r == 0xA0 || r == 0x1680 ||
    (0x2000 ≤ r && r ≤ 0x200A) || r == 0x2028 || r == 0x2029 || r == 0x202F ||
    r == 0x205F || r == 0x3000

/-- The scan of Go `strings.FieldsFunc`: `cur` is the field being read, kept
in reverse (`none` between fields, where Go has `start < 0`), and `acc` the
fields completed so far, latest first. -/
def fieldsLoop (f : Char → Bool) : List Char → Option (List Char) → List String → List String
  | [], none, acc => acc.reverse
  | [], some w, acc => (String.mk w.reverse :: acc).reverse
  | c :: cs, none, acc =>
      if f c then fieldsLoop f cs none acc else fieldsLoop f cs (some [c]) acc
  | c :: cs, some w, acc =>
      if f c then fieldsLoop f cs none (String.mk w.reverse :: acc)
      else fieldsLoop f cs (some (c :: w)) acc

/-- Go `strings.Fields`: the maximal runs of non-space characters of `s`, in order. -/
def fields (s : String) : List String :=
  fieldsLoop isSpace s.data none []

/-- Position of the first `':'`: the characters before it and those after it. -/
def cutColon : List Char → Option (List Char × List Char)
  | [] => none
  | c :: cs =>
      if c = ':' then some ([], cs)
      else match cutColon cs with
        | none => none
        | some (p, r) => some (c :: p, r)

/-- Go `strings.SplitN(str, ":", 2)`: `[str]` when `str` has no `':'`, else the
part before the first `':'` and the whole rest. -/
def splitN2 (str : String) : List String :=
  match cutColon str.data with
  | none => [str]
  | some (p, r) => [String.mk p, String.mk r]

/-! ## The parser -/

/-- The function `splitPkgNameAndArch` of `main.go`. -/
def splitPkgNameAndArch (str : String) : String × String :=
  match splitN2 str with
  | [f0] => (f0, "")
  | f0 :: f1 :: _ => (f0, f1)
  | [] => ("", "")

/-- One iteration of the scan loop of `getMap` on the text of one line. -/
def scanLine (result : StrMap) (text : String) : StrMap :=
  match fields text with
  | status :: pkgname :: version :: _ =>
      if status = "ii" then
        if (splitPkgNameAndArch pkgname).2 = "i386" then result
        else result.insert (splitPkgNameAndArch pkgname).1 version
      else result
  | _ => result

/-- The scan loop of `getMap`: starts from the empty map and handles the lines in order. -/
def scanLines (lines : List String) : StrMap :=
  lines.foldl scanLine ∅

/-- What opening and scanning a file delivers. -/
inductive FileRead where
  /-- Failure of `os.Open`, with its error. -/
  | openError (err : String)
  /-- Lines handed out by the scanner, and the final `scanner.Err()`. -/
  | scanned (lines : List String) (err : Option String)

/-- The function `getMap` of `main.go`; `Except.error` is the non-nil `error` result. -/
def getMap (file : FileRead) : Except String StrMap :=
  match file with
  | .openError err => .error err
  | .scanned lines scanErr =>
      let result := scanLines lines
      match scanErr with
      | some err => .error err
      | none => .ok result

/-! ## Vocabulary of the parser's specification -/

/-- Field `i` of a line, counted from 0 (the empty string when the line has no such field). -/
def fieldAt (text : String) (i : Nat) : String :=
  (fields text).getD i ""

/-- The architecture part of field 1 of a line, when the line has a field 1. -/
def archOfLine (text : String) : Option String :=
  ((fields text)[1]?).map fun f => (splitPkgNameAndArch f).2

/-- The line `text` is a qualifying line for the name `n`: it has at least 3
fields, field 0 is `ii`, the architecture part of field 1 is not `i386`, and
field 1 with the architecture suffix removed is `n`. -/
def Qualifies (n text : String) : Prop :=
  3 ≤ (fields text).length ∧ fieldAt text 0 = "ii" ∧
    (splitPkgNameAndArch (fieldAt text 1)).2 ≠ "i386" ∧
    (splitPkgNameAndArch (fieldAt text 1)).1 = n

instance instDecidableQualifies (n text : String) : Decidable (Qualifies n text) := by
  unfold Qualifies
  infer_instance

/-- The entry a line stores, read off the body of the scan loop: the value of
`pkg, version` on the path that reaches `result[pkg] = version`. -/
def lineEntry (text : String) : Option (String × String) :=
  match fields text with
  | status :: pkgname :: version :: _ =>
      if status = "ii" then
        if (splitPkgNameAndArch pkgname).2 = "i386" then none
        else some ((splitPkgNameAndArch pkgname).1, version)
      else none
  | _ => none

/-- Reading the file fails: it cannot be opened, or the scanner ends with an error. -/
def ReadFails (f : FileRead) : Prop :=
  match f with
  | .openError _ => True
  | .scanned _ (some _) => True
  | .scanned _ none => False

instance instDecidableReadFails (f : FileRead) : Decidable (ReadFails f) := by
  unfold ReadFails
  split <;> infer_instance

/-! ## The differ -/

/-- Body of the first loop of `diffVersionInfo`, on the entry `ka, va` of `a`;
the state is `(deleted, changed)`. -/
def diffStepA (b : StrMap) (st : StrMap × PairMap) (e : Σ _ : String, String) :
    StrMap × PairMap :=
  match b.lookup e.1 with
  | none => (st.1.insert e.1 e.2, st.2)
  | some vb => if e.2 ≠ vb then (st.1, st.2.insert e.1 (e.2, vb)) else st

/-- Body of the second loop of `diffVersionInfo`, on the entry `kb, vb` of `b`. -/
def diffStepB (a : StrMap) (added : StrMap) (e : Σ _ : String, String) : StrMap :=
  match a.lookup e.1 with
  | none => added.insert e.1 e.2
  | some _ => added

/-- The function `diffVersionInfo` of `main.go`: returns `(deleted, added, changed)`. -/
def diffVersionInfo (a b : StrMap) : StrMap × StrMap × PairMap :=
  let st := a.entries.foldl (diffStepA b) (∅, ∅)
  let added := b.entries.foldl (diffStepB a) ∅
  (st.1, added, st.2)

/-- The fourth class of a key under `diffVersionInfo a b`: `k` is unchanged
(present in `a` and in `b` with equal versions) and omitted (present in none of
the three result maps). -/
def UnchangedOmitted (a b : StrMap) (k : String) : Prop :=
  (k ∈ a ∧ k ∈ b ∧ a.lookup k = b.lookup k) ∧
    k ∉ (diffVersionInfo a b).1 ∧ k ∉ (diffVersionInfo a b).2.1 ∧
    k ∉ (diffVersionInfo a b).2.2

instance instDecidableUnchangedOmitted (a b : StrMap) (k : String) :
    Decidable (UnchangedOmitted a b k) := by
  unfold UnchangedOmitted
  infer_instance

/-- A sample old listing: `a ↦ 1`, `b ↦ 1`, `d ↦ 1`. -/
def sampleA : StrMap := scanLines ["ii a 1", "ii b 1", "ii d 1"]

/-- A sample new listing: `b ↦ 2`, `c ↦ 1`, `d ↦ 1`. -/
def sampleB : StrMap := scanLines ["ii b 2", "ii c 1", "ii d 1"]

/-! ## The classifier and `diff` -/

/-- Go `VersionChanged`. -/
structure VersionChanged where
  /-- The old version. -/
  From : String
  /-- The new version. -/
  To : String
  /-- Whether the comparator reported `From < To`. -/
  Upgrade : Bool
deriving DecidableEq

/-- Go `map[string]VersionChanged`. -/
abbrev VcMap := AList (fun _ : String => VersionChanged)

/-- Go `DiffResult`. -/
structure DiffResult where
  /-- Keys of the old listing absent from the new one. -/
  Deleted : StrMap
  /-- Keys of the new listing absent from the old one. -/
  Added : StrMap
  /-- Keys of both listings whose version differs. -/
  Changed : VcMap

/-- The version comparator, injected: `run x y` is the `error` returned by
`exec.Command("dpkg", "--compare-versions", x, "<", y).Run()`, with `none` for
`nil` (the command ran and exited with status 0) and `some` for every other
outcome (non-zero exit status, command not found, ...). -/
abbrev Comparator := String → String → Option String

/-- The method `compare` of `VersionChanged`: sets `Upgrade` when `Run` returns no error. -/
def VersionChanged.compare (run : Comparator) (vc : VersionChanged) : VersionChanged :=
  match run vc.From vc.To with
  | none => { vc with Upgrade := true }
  | some _ => vc

/-- Body of the loop of `diff` over `changed`, on the entry `k, v`. -/
def diffStepChanged (run : Comparator) (verChangedMap : VcMap)
    (e : Σ _ : String, String × String) : VcMap :=
  verChangedMap.insert e.1
    (VersionChanged.compare run { From := e.2.1, To := e.2.2, Upgrade := false })

/-- The function `diff` of `main.go`.  `fs` is the file system: `fs path` is what
opening and scanning `path` delivers.  The first component of the result is the
list of the paths handed to `getMap` (and so to `os.Open`), in order; the second
is Go's result pair, `Except.error err` for `(nil, err)` and `Except.ok dr` for
`(&dr, nil)`. -/
def diff (fs : String → FileRead) (run : Comparator) (fileA fileB : String) :
    List String × Except String DiffResult :=
  match getMap (fs fileA) with
  | .error err => ([fileA], .error err)
  | .ok verInfoA =>
      match getMap (fs fileB) with
      | .error err => ([fileA, fileB], .error err)
      | .ok verInfoB =>
          let r := diffVersionInfo verInfoA verInfoB
          let verChangedMap := r.2.2.entries.foldl (diffStepChanged run) ∅
          ([fileA, fileB], .ok { Deleted := r.1, Added := r.2.1, Changed := verChangedMap })

/-! ## The reporter and `main` -/

/-- Go `sort.Strings`: sorts into increasing order; Go compares strings byte by
byte, which on UTF-8 text is the lexicographic order of the code points. -/
def sortStrings (keys : List String) : List String :=
  keys.insertionSort fun a b => a.data ≤ b.data

/-- The function `getSortedKeysMapSS` of `main.go`. -/
def getSortedKeysMapSS (m : StrMap) : List String :=
  sortStrings m.keys

/-- The function `getSortedKeysMapSVc` of `main.go`. -/
def getSortedKeysMapSVc (m : VcMap) : List String :=
  sortStrings m.keys

/-- The line written by Go `fmt.Println` for string operands, without its final
newline: the operands with one space between neighbours. -/
def println : List String → String
  | [] => ""
  | [a] => a
  | a :: b :: rest => a ++ " " ++ println (b :: rest)

/-- The line `main` prints for the key `k` of `diff.Deleted`. -/
def deletedLine (d : DiffResult) (k : String) : String :=
  println ["D", k, (d.Deleted.lookup k).getD ""]

/-- The line `main` prints for the key `k` of `diff.Added`. -/
def addedLine (d : DiffResult) (k : String) : String :=
  println ["A", k, (d.Added.lookup k).getD ""]

/-- The line `main` prints for the key `k` of `diff.Changed`. -/
def changedLine (d : DiffResult) (k : String) : String :=
  let v := (d.Changed.lookup k).getD { From := "", To := "", Upgrade := false }
  let upOrDown := if v.Upgrade then "M^" else "Mv"
  println [upOrDown, k, v.From, "->", v.To]

/-- The three printing loops of `main`: the lines written to standard output, in order. -/
def report (d : DiffResult) : List String :=
  (getSortedKeysMapSS d.Deleted).map (deletedLine d) ++
    (getSortedKeysMapSS d.Added).map (addedLine d) ++
    (getSortedKeysMapSVc d.Changed).map (changedLine d)

/-- What a run of the program does: the paths it opens, the lines it writes to
standard output, and the error handed to `log.Fatal` when it ends that way. -/
structure Outcome where
  /-- Paths handed to `os.Open`, in order. -/
  opened : List String
  /-- Lines written to standard output, in order. -/
  stdout : List String
  /-- The error given to `log.Fatal`, which ends the process. -/
  fatal : Option String
deriving DecidableEq

/-- The function `main` of `main.go`; `args` is `os.Args`. -/
def main (fs : String → FileRead) (run : Comparator) (args : List String) : Outcome :=
  if args.length = 3 then
    match diff fs run (args.getD 1 "") (args.getD 2 "") with
    | (opened, .error err) => { opened := opened, stdout := [], fatal := some err }
    | (opened, .ok d) => { opened := opened, stdout := report d, fatal := none }
  else { opened := [], stdout := [], fatal := none }

/-- A sample file system: `A` holds `foo 1.0`, `bar 3` and `old 1`, every other
path holds `foo 2.0`, `bar 2` and `new 1`, and the path `missing` cannot be opened. -/
def sampleFs (path : String) : FileRead :=
  if path = "missing" then .openError "open missing: no such file or directory"
  else if path = "A" then .scanned ["ii foo 1.0", "ii bar 3", "ii old 1"] none
  else .scanned ["ii foo 2.0", "ii bar 2", "ii new 1"] none

/-- A sample comparator: succeeds on `1.0 < 2.0` and fails with exit status 1 otherwise. -/
def sampleRun : Comparator :=
  fun x y => if x = "1.0" ∧ y = "2.0" then none else some "exit status 1"

/-! ## Applying a diff -/

/-- The map obtained from `a` by removing every key of `deleted`, then replacing
the value of every key `k` of `changed` by the second component of `changed[k]`,
then inserting every entry of `added`. -/
def applyDiff (a deleted added : StrMap) (changed : PairMap) : StrMap :=
  let removed := deleted.keys.foldl (fun m k => m.erase k) a
  let replaced := changed.entries.foldl
    (fun m e => if e.1 ∈ m then m.insert e.1 e.2.2 else m) removed
  added.entries.foldl (fun m e => m.insert e.1 e.2) replaced

/-- The downgrade example of the specification: `foo 2.0` in A and `foo 1.0` in B. -/
def downgradeFs (path : String) : FileRead :=
  if path = "A" then .scanned ["ii foo 2.0"] none else .scanned ["ii foo 1.0"] none

/-- A sample result: `old` deleted, `new` added, `foo` upgraded and `bar` downgraded. -/
def sampleResult : DiffResult where
  Deleted := (∅ : StrMap).insert "old" "1"
  Added := (∅ : StrMap).insert "new" "1"
  Changed := ((∅ : VcMap).insert "foo" { From := "1.0", To := "2.0", Upgrade := true }).insert
    "bar" { From := "3", To := "2", Upgrade := false }

/-- The deleted and added example of the specification: `bar 1.0` in A only, `baz 1.0` in B only. -/
def barBazFs (path : String) : FileRead :=
  if path = "A" then .scanned ["ii bar 1.0", "ii foo 1"] none
  else .scanned ["ii baz 1.0", "ii foo 1"] none

/-- The end-to-end example of the specification with its listings taken as
written, `pkgname ii foo 1.0` for A and `pkgname ii foo 2.0` for B. -/
def asWrittenFs (path : String) : FileRead :=
  if path = "A" then .scanned ["pkgname ii foo 1.0"] none
  else .scanned ["pkgname ii foo 2.0"] none

/-- The end-to-end example with the status in field 0: `ii foo 1.0` for A and
`ii foo 2.0` for B. -/
def amendedFs (path : String) : FileRead :=
  if path = "A" then .scanned ["ii foo 1.0"] none else .scanned ["ii foo 2.0"] none

/-! ## Line breaks -/

/-- A string without line break. -/
def NoNewline (s : String) : Prop :=
  '\n' ∉ s.data

instance instDecidableNoNewline (s : String) : Decidable (NoNewline s) := by
  unfold NoNewline
  infer_instance

/-- A map all of whose keys and values are without line break. -/
def CleanMap (m : StrMap) : Prop :=
  ∀ k v, m.lookup k = some v → NoNewline k ∧ NoNewline v

/-! ## Lemmas on the two loops of the differ -/

/-- The map `deleted` after the first loop has run over the entries `l`. -/
theorem foldl_diffStepA_deleted (b : StrMap) (k : String) :
    ∀ (l : List (Σ _ : String, String)), l.NodupKeys → ∀ st : StrMap × PairMap,
      (l.foldl (diffStepA b) st).1.lookup k =
        match l.dlookup k with
        | some v => if b.lookup k = none then some v else st.1.lookup k
        | none => st.1.lookup k := by
  intro l
  induction l with
  | nil => intro _ st; simp
  | cons e t ih =>
    intro hnd st
    obtain ⟨hk, ht⟩ := List.nodupKeys_cons.mp hnd
    rw [List.foldl_cons, ih ht]
    by_cases h : k = e.1
    · subst h
      have hnone : t.dlookup e.1 = none := List.dlookup_eq_none.mpr hk
      rw [hnone, List.dlookup_cons_eq]
      unfold diffStepA
      cases hb : b.lookup e.1 with
      | none => simp [AList.lookup_insert]
      | some vb => by_cases hv : e.2 = vb <;> simp [hv]
    · rw [List.dlookup_cons_ne _ _ h]
      have hst : (diffStepA b st e).1.lookup k = st.1.lookup k := by
        unfold diffStepA
        cases hb : b.lookup e.1 with
        | none => simp [AList.lookup_insert_ne h]
        | some vb => by_cases hv : e.2 = vb <;> simp [hv]
      rw [hst]

/-- The map `changed` after the first loop has run over the entries `l`. -/
theorem foldl_diffStepA_changed (b : StrMap) (k : String) :
    ∀ (l : List (Σ _ : String, String)), l.NodupKeys → ∀ st : StrMap × PairMap,
      (l.foldl (diffStepA b) st).2.lookup k =
        match l.dlookup k, b.lookup k with
        | some va, some vb => if va ≠ vb then some (va, vb) else st.2.lookup k
        | _, _ => st.2.lookup k := by
  intro l
  induction l with
  | nil => intro _ st; simp
  | cons e t ih =>
    intro hnd st
    obtain ⟨hk, ht⟩ := List.nodupKeys_cons.mp hnd
    rw [List.foldl_cons, ih ht]
    by_cases h : k = e.1
    · subst h
      have hnone : t.dlookup e.1 = none := List.dlookup_eq_none.mpr hk
      rw [hnone, List.dlookup_cons_eq]
      unfold diffStepA
      cases hb : b.lookup e.1 with
      | none => simp
      | some vb => by_cases hv : e.2 = vb <;> simp [hv, AList.lookup_insert]
    · rw [List.dlookup_cons_ne _ _ h]
      have hst : (diffStepA b st e).2.lookup k = st.2.lookup k := by
        unfold diffStepA
        cases hb : b.lookup e.1 with
        | none => simp
        | some vb => by_cases hv : e.2 = vb <;> simp [hv, AList.lookup_insert_ne h]
      rw [hst]

/-- The map `added` after the second loop has run over the entries `l`. -/
theorem foldl_diffStepB_added (a : StrMap) (k : String) :
    ∀ (l : List (Σ _ : String, String)), l.NodupKeys → ∀ added : StrMap,
      (l.foldl (diffStepB a) added).lookup k =
        match l.dlookup k with
        | some v => if a.lookup k = none then some v else added.lookup k
        | none => added.lookup k := by
  intro l
  induction l with
  | nil => intro _ st; simp
  | cons e t ih =>
    intro hnd added
    obtain ⟨hk, ht⟩ := List.nodupKeys_cons.mp hnd
    rw [List.foldl_cons, ih ht]
    by_cases h : k = e.1
    · subst h
      have hnone : t.dlookup e.1 = none := List.dlookup_eq_none.mpr hk
      rw [hnone, List.dlookup_cons_eq]
      unfold diffStepB
      cases ha : a.lookup e.1 with
      | none => simp [AList.lookup_insert]
      | some va => simp
    · rw [List.dlookup_cons_ne _ _ h]
      have hst : (diffStepB a added e).lookup k = added.lookup k := by
        unfold diffStepB
        cases ha : a.lookup e.1 with
        | none => simp [AList.lookup_insert_ne h]
        | some va => simp
      rw [hst]

/-- Content of the `deleted` map returned by `diffVersionInfo`. -/
theorem deleted_lookup (a b : StrMap) (k : String) :
    (diffVersionInfo a b).1.lookup k =
      match a.lookup k with
      | some v => if b.lookup k = none then some v else none
      | none => none := by
  unfold diffVersionInfo
  simp only
  rw [foldl_diffStepA_deleted b k a.entries a.nodupKeys]
  rfl

/-- Content of the `added` map returned by `diffVersionInfo`. -/
theorem added_lookup (a b : StrMap) (k : String) :
    (diffVersionInfo a b).2.1.lookup k =
      match b.lookup k with
      | some v => if a.lookup k = none then some v else none
      | none => none := by
  unfold diffVersionInfo
  simp only
  rw [foldl_diffStepB_added a k b.entries b.nodupKeys]
  rfl

/-- Content of the `changed` map returned by `diffVersionInfo`. -/
theorem changed_lookup (a b : StrMap) (k : String) :
    (diffVersionInfo a b).2.2.lookup k =
      match a.lookup k, b.lookup k with
      | some va, some vb => if va ≠ vb then some (va, vb) else none
      | _, _ => none := by
  unfold diffVersionInfo
  simp only
  rw [foldl_diffStepA_changed b k a.entries a.nodupKeys]
  rfl

/-- A map in which no key is found is the empty map. -/
theorem eq_empty_of_lookup {β : Type} (s : AList (fun _ : String => β))
    (h : ∀ k, s.lookup k = none) : s = ∅ := by
  apply AList.ext
  show s.entries = []
  cases hs : s.entries with
  | nil => rfl
  | cons e t =>
    exfalso
    have hmem : (⟨e.1, e.2⟩ : Σ _ : String, β) ∈ s.entries := by
      rw [hs]; exact List.mem_cons_self _ _
    have hl : e.2 ∈ s.lookup e.1 := AList.mem_lookup_iff.mpr hmem
    rw [h e.1] at hl
    cases hl

/-- Membership in a map, through `lookup`. -/
theorem mem_iff_lookup {β : Type} (s : AList (fun _ : String => β)) (k : String) :
    k ∈ s ↔ ∃ v, s.lookup k = some v := by
  rw [← AList.lookup_isSome, Option.isSome_iff_exists]

/-- The pair recorded in `changed` for a key, as a helper for later proofs. -/
theorem diffVersionInfo_changed_lookup (a b : StrMap) (k : String) :
    ∀ va vb, (diffVersionInfo a b).2.2.lookup k = some (va, vb) ↔
      a.lookup k = some va ∧ b.lookup k = some vb ∧ va ≠ vb := by
  intro va vb
  rw [changed_lookup]
  cases ha : a.lookup k with
  | none => simp
  | some wa =>
    cases hb : b.lookup k with
    | none => simp
    | some wb =>
      by_cases hne : wa = wb
      · subst hne
        simp only [ne_eq, not_true_eq_false, ↓reduceIte, Option.some.injEq]
        constructor
        · intro h; cases h
        · rintro ⟨h1, h2, h3⟩
          exact absurd (h1.symm.trans h2) h3
      · simp only [ne_eq, hne, not_false_eq_true, ↓reduceIte, Option.some.injEq,
          Prod.mk.injEq]
        constructor
        · rintro ⟨h1, h2⟩
          subst h1 h2
          exact ⟨rfl, rfl, hne⟩
        · rintro ⟨h1, h2, _⟩
          exact ⟨h1, h2⟩

/-! ## The differ: the three result maps -/

/-- C2: the `deleted` map of `diffVersionInfo a b` maps `k` to `v` exactly when
`a` maps `k` to `v` and `k` is absent from `b`. -/
theorem diffVersionInfo_deleted_iff (a b : StrMap) (k v : String) :
    (diffVersionInfo a b).1.lookup k = some v ↔ a.lookup k = some v ∧ k ∉ b := by
  rw [deleted_lookup, ← AList.lookup_eq_none]
  cases ha : a.lookup k with
  | none => simp
  | some va => by_cases hb : b.lookup k = none <;> simp [hb]

/-- C3: the `added` map of `diffVersionInfo a b` maps `k` to `v` exactly when
`b` maps `k` to `v` and `k` is absent from `a`. -/
theorem diffVersionInfo_added_iff (a b : StrMap) (k v : String) :
    (diffVersionInfo a b).2.1.lookup k = some v ↔ b.lookup k = some v ∧ k ∉ a := by
  rw [added_lookup, ← AList.lookup_eq_none]
  cases hb : b.lookup k with
  | none => simp
  | some vb => by_cases ha : a.lookup k = none <;> simp [ha]

/-- C4: the `changed` map of `diffVersionInfo a b` contains `k` exactly when `k`
is in both `a` and `b` with different versions, and the pair recorded for `k` is
then `(a[k], b[k])`, old version first: `changed[k] = (va, vb)` holds exactly
when `a[k] = va`, `b[k] = vb` and `va ≠ vb`. -/
theorem diffVersionInfo_changed_iff (a b : StrMap) (k : String) :
    (k ∈ (diffVersionInfo a b).2.2 ↔
        ∃ va vb, a.lookup k = some va ∧ b.lookup k = some vb ∧ va ≠ vb) ∧
      ∀ va vb, (diffVersionInfo a b).2.2.lookup k = some (va, vb) ↔
        a.lookup k = some va ∧ b.lookup k = some vb ∧ va ≠ vb := by
  have key : ∀ va vb, (diffVersionInfo a b).2.2.lookup k = some (va, vb) ↔
      a.lookup k = some va ∧ b.lookup k = some vb ∧ va ≠ vb := by
    intro va vb
    rw [changed_lookup]
    cases ha : a.lookup k with
    | none => simp
    | some wa =>
      cases hb : b.lookup k with
      | none => simp
      | some wb =>
        by_cases hne : wa = wb
        · subst hne
          simp only [ne_eq, not_true_eq_false, ↓reduceIte, Option.some.injEq]
          constructor
          · intro h; cases h
          · rintro ⟨h1, h2, h3⟩
            exact absurd (h1.symm.trans h2) h3
        · simp only [ne_eq, hne, not_false_eq_true, ↓reduceIte, Option.some.injEq,
            Prod.mk.injEq]
          constructor
          · rintro ⟨h1, h2⟩
            subst h1 h2
            exact ⟨rfl, rfl, hne⟩
          · rintro ⟨h1, h2, _⟩
            exact ⟨h1, h2⟩
  refine ⟨?_, key⟩
  rw [mem_iff_lookup]
  constructor
  · rintro ⟨⟨va, vb⟩, h⟩
    exact ⟨va, vb, (key va vb).mp h⟩
  · rintro ⟨va, vb, h⟩
    exact ⟨(va, vb), (key va vb).mpr h⟩

/-- C1: for `(deleted, added, changed) = diffVersionInfo a b` and every key `k`:
the three result maps are pairwise disjoint at `k`; if `k` is a key of `a` or of
`b` then exactly one of the four classes holds for it (deleted, added, changed,
unchanged-and-omitted, the last meaning that `a` and `b` give `k` the same
version and `k` is in none of the three maps); and a key of any result map is a
key of `a` or of `b`. -/
theorem diffVersionInfo_partition (a b : StrMap) (k : String) :
    (¬(k ∈ (diffVersionInfo a b).1 ∧ k ∈ (diffVersionInfo a b).2.1) ∧
      ¬(k ∈ (diffVersionInfo a b).1 ∧ k ∈ (diffVersionInfo a b).2.2) ∧
      ¬(k ∈ (diffVersionInfo a b).2.1 ∧ k ∈ (diffVersionInfo a b).2.2)) ∧
    ((k ∈ a ∨ k ∈ b) →
      (k ∈ (diffVersionInfo a b).1 ∧ k ∉ (diffVersionInfo a b).2.1 ∧
          k ∉ (diffVersionInfo a b).2.2 ∧ ¬UnchangedOmitted a b k) ∨
        (k ∉ (diffVersionInfo a b).1 ∧ k ∈ (diffVersionInfo a b).2.1 ∧
          k ∉ (diffVersionInfo a b).2.2 ∧ ¬UnchangedOmitted a b k) ∨
        (k ∉ (diffVersionInfo a b).1 ∧ k ∉ (diffVersionInfo a b).2.1 ∧
          k ∈ (diffVersionInfo a b).2.2 ∧ ¬UnchangedOmitted a b k) ∨
        (k ∉ (diffVersionInfo a b).1 ∧ k ∉ (diffVersionInfo a b).2.1 ∧
          k ∉ (diffVersionInfo a b).2.2 ∧ UnchangedOmitted a b k)) ∧
    ((k ∈ (diffVersionInfo a b).1 ∨ k ∈ (diffVersionInfo a b).2.1 ∨
        k ∈ (diffVersionInfo a b).2.2) → (k ∈ a ∨ k ∈ b)) := by
  unfold UnchangedOmitted
  simp only [mem_iff_lookup, deleted_lookup, added_lookup, changed_lookup]
  cases ha : a.lookup k with
  | none =>
    cases hb : b.lookup k with
    | none => simp
    | some vb => simp
  | some va =>
    cases hb : b.lookup k with
    | none => simp
    | some vb => by_cases hv : va = vb <;> simp [hv]

/-- Witness for C1 on `sampleA` and `sampleB`: the key `d` is in both maps, so
it is in exactly one class, and that class is unchanged-and-omitted; the other
three classes hold `a` (deleted), `c` (added) and `b` (changed). -/
theorem diffVersionInfo_partition_witness :
    ("d" ∈ sampleA ∨ "d" ∈ sampleB) ∧ UnchangedOmitted sampleA sampleB "d" ∧
      "a" ∈ (diffVersionInfo sampleA sampleB).1 ∧
      "c" ∈ (diffVersionInfo sampleA sampleB).2.1 ∧
      "b" ∈ (diffVersionInfo sampleA sampleB).2.2 := by
  refine ⟨by decide, ?_, by decide, by decide, by decide⟩
  rcases (diffVersionInfo_partition sampleA sampleB "d").2.1 (by decide) with h | h | h | h
  · exact absurd h.1 (by decide)
  · exact absurd h.2.1 (by decide)
  · exact absurd h.2.2.1 (by decide)
  · exact h.2.2.2

/-- C5: `diffVersionInfo a a` returns three empty maps. -/
theorem diffVersionInfo_self (a : StrMap) : diffVersionInfo a a = (∅, ∅, ∅) := by
  have h1 : (diffVersionInfo a a).1 = ∅ := by
    apply eq_empty_of_lookup
    intro k
    rw [deleted_lookup]
    cases ha : a.lookup k <;> simp
  have h2 : (diffVersionInfo a a).2.1 = ∅ := by
    apply eq_empty_of_lookup
    intro k
    rw [added_lookup]
    cases ha : a.lookup k <;> simp
  have h3 : (diffVersionInfo a a).2.2 = ∅ := by
    apply eq_empty_of_lookup
    intro k
    rw [changed_lookup]
    cases ha : a.lookup k <;> simp
  exact Prod.ext h1 (Prod.ext h2 h3)

/-- C6: with `(d1, a1, c1) = diffVersionInfo a b` and `(d2, a2, c2) =
diffVersionInfo b a`: `d2` and `a1` hold the same entries, `a2` and `d1` hold the
same entries, `c1` and `c2` have the same keys, and `c2[k]` is `c1[k]` with its
two components swapped. -/
theorem diffVersionInfo_swap (a b : StrMap) :
    (∀ k, (diffVersionInfo b a).1.lookup k = (diffVersionInfo a b).2.1.lookup k) ∧
    (∀ k, (diffVersionInfo b a).2.1.lookup k = (diffVersionInfo a b).1.lookup k) ∧
    (∀ k, k ∈ (diffVersionInfo b a).2.2 ↔ k ∈ (diffVersionInfo a b).2.2) ∧
    (∀ k, (diffVersionInfo b a).2.2.lookup k =
      ((diffVersionInfo a b).2.2.lookup k).map Prod.swap) := by
  have hc : ∀ k, (diffVersionInfo b a).2.2.lookup k =
      ((diffVersionInfo a b).2.2.lookup k).map Prod.swap := by
    intro k
    rw [changed_lookup, changed_lookup]
    cases ha : a.lookup k with
    | none => cases hb : b.lookup k <;> simp
    | some va =>
      cases hb : b.lookup k with
      | none => simp
      | some vb =>
        by_cases hv : va = vb
        · subst hv; simp
        · have hv2 : ¬ vb = va := fun h => hv h.symm
          simp [hv, hv2]
  refine ⟨?_, ?_, ?_, hc⟩
  · intro k; rw [deleted_lookup, added_lookup]
  · intro k; rw [deleted_lookup, added_lookup]
  · intro k
    rw [mem_iff_lookup, mem_iff_lookup, hc k]
    cases (diffVersionInfo a b).2.2.lookup k <;> simp

/-! ## Lemmas on the scan loop -/

/-- The scan loop body stores the entry of the line, or leaves the map alone. -/
theorem scanLine_eq (m : StrMap) (text : String) :
    scanLine m text =
      match lineEntry text with
      | some e => m.insert e.1 e.2
      | none => m := by
  unfold scanLine lineEntry
  split
  · split
    · split <;> rfl
    · rfl
  · rfl

/-- A line stores `(n, v)` exactly when it qualifies for `n` and its field 2 is `v`. -/
theorem lineEntry_eq_some (text n v : String) :
    lineEntry text = some (n, v) ↔ Qualifies n text ∧ fieldAt text 2 = v := by
  unfold lineEntry Qualifies fieldAt
  rcases hf : fields text with _ | ⟨f0, _ | ⟨f1, _ | ⟨f2, rest⟩⟩⟩
  · simp
  · simp
  · simp
  · by_cases h0 : f0 = "ii"
    · by_cases h1 : (splitPkgNameAndArch f1).2 = "i386"
      · simp [h0, h1]
      · simp [h0, h1]
    · simp [h0]

/-- A line that stores nothing qualifies for no name. -/
theorem lineEntry_eq_none (text : String) :
    lineEntry text = none ↔ ∀ n, ¬Qualifies n text := by
  constructor
  · intro h n hq
    have := (lineEntry_eq_some text n (fieldAt text 2)).mpr ⟨hq, rfl⟩
    rw [h] at this
    cases this
  · intro h
    cases he : lineEntry text with
    | none => rfl
    | some e =>
      exact absurd ((lineEntry_eq_some text e.1 e.2).mp he).1 (h e.1)

/-- Looking a name up after one iteration of the scan loop. -/
theorem lookup_scanLine (m : StrMap) (n text : String) :
    (scanLine m text).lookup n =
      if Qualifies n text then some (fieldAt text 2) else m.lookup n := by
  rw [scanLine_eq]
  cases he : lineEntry text with
  | none =>
    have hq : ¬Qualifies n text := (lineEntry_eq_none text).mp he n
    simp [hq]
  | some e =>
    obtain ⟨hq, hv⟩ := (lineEntry_eq_some text e.1 e.2).mp he
    by_cases hn : n = e.1
    · subst hn
      simp [hq, hv, AList.lookup_insert]
    · have hq2 : ¬Qualifies n text := fun h => hn (h.2.2.2.symm.trans hq.2.2.2)
      simp [hq2, AList.lookup_insert_ne hn]

/-- Looking a name up after the scan loop has run over `lines` from the map `m`:
the last qualifying line decides, and `m` when there is none. -/
theorem lookup_foldl_scanLine (n : String) :
    ∀ (lines : List String) (m : StrMap),
      (lines.foldl scanLine m).lookup n =
        match lines.reverse.find? (fun l => decide (Qualifies n l)) with
        | some l => some (fieldAt l 2)
        | none => m.lookup n := by
  intro lines
  induction lines with
  | nil => intro m; rfl
  | cons x t ih =>
    intro m
    rw [List.foldl_cons, ih, List.reverse_cons, List.find?_append, lookup_scanLine]
    cases ht : t.reverse.find? (fun l => decide (Qualifies n l)) with
    | some l => simp
    | none => by_cases hq : Qualifies n x <;> simp [hq]

/-- Lines on which the loop body does nothing can be removed from the input. -/
theorem foldl_scanLine_filter (p : String → Bool)
    (hp : ∀ text, p text = false → ∀ m, scanLine m text = m) :
    ∀ (lines : List String) (m : StrMap),
      (lines.filter p).foldl scanLine m = lines.foldl scanLine m := by
  intro lines
  induction lines with
  | nil => intro m; rfl
  | cons x t ih =>
    intro m
    cases hx : p x with
    | true => rw [List.filter_cons_of_pos hx, List.foldl_cons, List.foldl_cons, ih]
    | false =>
      rw [List.filter_cons_of_neg (by simp [hx]), List.foldl_cons, hp x hx m, ih]

/-- The first hit of a search from the end is the last hit in the list. -/
theorem find?_reverse_eq_some {α : Type} (p : α → Bool) (xs : List α) (x : α) :
    xs.reverse.find? p = some x ↔
      ∃ pre post, xs = pre ++ x :: post ∧ p x = true ∧ ∀ y ∈ post, p y = false := by
  rw [List.find?_eq_some]
  constructor
  · rintro ⟨hx, as, bs, hrev, has⟩
    refine ⟨bs.reverse, as.reverse, ?_, hx, ?_⟩
    · have := congrArg List.reverse hrev
      simpa using this
    · intro y hy
      have := has y (List.mem_reverse.mp hy)
      simpa using this
  · rintro ⟨pre, post, hxs, hx, hpost⟩
    refine ⟨hx, post.reverse, pre.reverse, ?_, ?_⟩
    · rw [hxs]; simp
    · intro y hy
      simp [hpost y (List.mem_reverse.mp hy)]

/-! ## The parser -/

/-- C7: the map built by the scan loop of `getMap` maps `n` to `v` exactly when
the input has a qualifying line for `n` (at least 3 fields, field 0 equal to
`ii`, architecture part of field 1 other than `i386`, field 1 without its
architecture suffix equal to `n`) such that no later line qualifies for `n`, and
`v` is field 2 of that line: the entry is stored under the bare name and the
last qualifying row wins. -/
theorem scanLines_lookup_iff (lines : List String) (n v : String) :
    (scanLines lines).lookup n = some v ↔
      ∃ pre l post, lines = pre ++ l :: post ∧ Qualifies n l ∧ fieldAt l 2 = v ∧
        ∀ l' ∈ post, ¬Qualifies n l' := by
  unfold scanLines
  rw [lookup_foldl_scanLine]
  constructor
  · intro h
    cases hf : lines.reverse.find? (fun l => decide (Qualifies n l)) with
    | none => rw [hf] at h; simp at h
    | some l =>
      rw [hf] at h
      obtain ⟨pre, post, hxs, hl, hpost⟩ := (find?_reverse_eq_some _ lines l).mp hf
      refine ⟨pre, l, post, hxs, of_decide_eq_true hl, by simpa using h, ?_⟩
      intro y hy
      exact of_decide_eq_false (hpost y hy)
  · rintro ⟨pre, l, post, hxs, hl, hv, hpost⟩
    have hf : lines.reverse.find? (fun l => decide (Qualifies n l)) = some l :=
      (find?_reverse_eq_some _ lines l).mpr
        ⟨pre, post, hxs, decide_eq_true hl, fun y hy => decide_eq_false (hpost y hy)⟩
    rw [hf, ← hv]

/-- Witness for C7: of three rows for `foo` the third is an `i386` row, so the
second one, stored under the bare name, decides the version. -/
theorem scanLines_lookup_iff_witness :
    (scanLines ["ii foo 1", "ii foo:amd64 2", "ii foo:i386 3"]).lookup "foo" = some "2" :=
  (scanLines_lookup_iff ["ii foo 1", "ii foo:amd64 2", "ii foo:i386 3"] "foo" "2").mpr
    ⟨["ii foo 1"], "ii foo:amd64 2", ["ii foo:i386 3"], rfl, by decide, by decide, by decide⟩

/-- C8: rows whose architecture suffix is `i386` are excluded whatever their
status: the scan loop builds the same map from `lines` as from `lines` without
the lines whose field 1 splits to the architecture `i386`; such a line leaves
every map as it is (it adds, overwrites and deletes nothing). -/
theorem scanLines_drop_i386 (lines : List String) :
    scanLines lines = scanLines (lines.filter fun l => decide (archOfLine l ≠ some "i386")) ∧
      ∀ (m : StrMap) (l : String), archOfLine l = some "i386" → scanLine m l = m := by
  have key : ∀ (l : String), archOfLine l = some "i386" → ∀ m : StrMap, scanLine m l = m := by
    intro l hl m
    unfold archOfLine at hl
    unfold scanLine
    rcases hf : fields l with _ | ⟨f0, _ | ⟨f1, _ | ⟨f2, rest⟩⟩⟩
    · rfl
    · rfl
    · rfl
    · rw [hf] at hl
      have h1 : (splitPkgNameAndArch f1).2 = "i386" := by simpa using hl
      simp [h1]
  refine ⟨?_, fun m l hl => key l hl m⟩
  unfold scanLines
  rw [foldl_scanLine_filter]
  intro text ht m
  exact key text (by simpa using ht) m

/-- Witness for C8: an `i386` row for a name already stored, with status `ii`,
leaves the sample map as it is. -/
theorem scanLines_drop_i386_witness :
    archOfLine "ii a:i386 9" = some "i386" ∧ scanLine sampleA "ii a:i386 9" = sampleA :=
  ⟨by decide, (scanLines_drop_i386 []).2 sampleA "ii a:i386 9" (by decide)⟩

/-- C9: rows whose status field is not `ii` are excluded: the scan loop builds
the same map from `lines` as from `lines` without the lines whose first field is
not exactly `ii`, both when lines without any field are removed with them and
when they are kept. -/
theorem scanLines_drop_not_ii (lines : List String) :
    scanLines lines = scanLines (lines.filter fun l => decide ((fields l)[0]? = some "ii")) ∧
      scanLines lines = scanLines (lines.filter fun l =>
        decide ((fields l)[0]? = none ∨ (fields l)[0]? = some "ii")) := by
  have key : ∀ (l : String), (fields l)[0]? ≠ some "ii" → ∀ m : StrMap, scanLine m l = m := by
    intro l hl m
    unfold scanLine
    rcases hf : fields l with _ | ⟨f0, _ | ⟨f1, _ | ⟨f2, rest⟩⟩⟩
    · rfl
    · rfl
    · rfl
    · rw [hf] at hl
      have h0 : ¬f0 = "ii" := by simpa using hl
      simp [h0]
  unfold scanLines
  constructor
  · rw [foldl_scanLine_filter]
    intro text ht m
    exact key text (by simpa using ht) m
  · rw [foldl_scanLine_filter]
    intro text ht m
    have h : ¬((fields text)[0]? = none ∨ (fields text)[0]? = some "ii") := by simpa using ht
    exact key text (fun h2 => h (Or.inr h2)) m

/-- C10: when the file opens and the scanner reports no error, `getMap` returns
a map and no error, whatever the lines are, and that map is the one returned for
the input without the lines that have fewer than 3 fields. -/
theorem getMap_malformed_lines (lines : List String) :
    getMap (.scanned lines none) = .ok (scanLines lines) ∧
      getMap (.scanned lines none) =
        getMap (.scanned (lines.filter fun l => decide (3 ≤ (fields l).length)) none) := by
  have key : scanLines (lines.filter fun l => decide (3 ≤ (fields l).length)) =
      scanLines lines := by
    unfold scanLines
    rw [foldl_scanLine_filter]
    intro text ht m
    have hlen : (fields text).length < 3 := by simpa using ht
    unfold scanLine
    rcases hf : fields text with _ | ⟨f0, _ | ⟨f1, _ | ⟨f2, rest⟩⟩⟩
    · rfl
    · rfl
    · rfl
    · rw [hf] at hlen
      simp at hlen
      omega
  refine ⟨rfl, ?_⟩
  show Except.ok (scanLines lines) = Except.ok (scanLines _)
  rw [key]

/-! ## Lemmas on the classifier and `diff` -/

/-- On a fresh entry, `compare` keeps `From` and `To` and sets `Upgrade` to
whether the comparator returned no error. -/
theorem compare_fresh (run : Comparator) (x y : String) :
    VersionChanged.compare run { From := x, To := y, Upgrade := false } =
      { From := x, To := y, Upgrade := (run x y).isNone } := by
  unfold VersionChanged.compare
  cases h : run x y <;> simp

/-- The map `verChangedMap` after the loop of `diff` has run over the entries `l`. -/
theorem foldl_diffStepChanged (run : Comparator) (k : String) :
    ∀ (l : List (Σ _ : String, String × String)), l.NodupKeys → ∀ m : VcMap,
      (l.foldl (diffStepChanged run) m).lookup k =
        match l.dlookup k with
        | some p => some { From := p.1, To := p.2, Upgrade := (run p.1 p.2).isNone }
        | none => m.lookup k := by
  intro l
  induction l with
  | nil => intro _ m; simp
  | cons e t ih =>
    intro hnd m
    obtain ⟨hk, ht⟩ := List.nodupKeys_cons.mp hnd
    rw [List.foldl_cons, ih ht]
    by_cases h : k = e.1
    · subst h
      have hnone : t.dlookup e.1 = none := List.dlookup_eq_none.mpr hk
      rw [hnone, List.dlookup_cons_eq]
      simp [diffStepChanged, AList.lookup_insert, compare_fresh]
    · rw [List.dlookup_cons_ne _ _ h]
      have hst : (diffStepChanged run m e).lookup k = m.lookup k := by
        simp [diffStepChanged, AList.lookup_insert_ne h]
      rw [hst]

/-- The classified map built by `diff` from the `changed` map `c`. -/
theorem classified_lookup (run : Comparator) (c : PairMap) (k : String) :
    (c.entries.foldl (diffStepChanged run) ∅).lookup k =
      (c.lookup k).map fun p =>
        { From := p.1, To := p.2, Upgrade := (run p.1 p.2).isNone } := by
  rw [foldl_diffStepChanged run k c.entries c.nodupKeys]
  show _ = Option.map _ (c.entries.dlookup k)
  cases c.entries.dlookup k <;> rfl

/-- The result of `diff` when both files are read without error. -/
theorem diff_of_ok (fs : String → FileRead) (run : Comparator) (fileA fileB : String)
    (a b : StrMap) (ha : getMap (fs fileA) = .ok a) (hb : getMap (fs fileB) = .ok b) :
    diff fs run fileA fileB =
      ([fileA, fileB], .ok
        { Deleted := (diffVersionInfo a b).1, Added := (diffVersionInfo a b).2.1,
          Changed := (diffVersionInfo a b).2.2.entries.foldl (diffStepChanged run) ∅ }) := by
  unfold diff
  rw [ha]
  simp only [hb]

/-- The result of `diff` when the first file cannot be read. -/
theorem diff_of_errorA (fs : String → FileRead) (run : Comparator) (fileA fileB : String)
    (e : String) (ha : getMap (fs fileA) = .error e) :
    diff fs run fileA fileB = ([fileA], .error e) := by
  unfold diff
  rw [ha]

/-- The result of `diff` when the first file is read and the second cannot be. -/
theorem diff_of_errorB (fs : String → FileRead) (run : Comparator) (fileA fileB : String)
    (a : StrMap) (e : String) (ha : getMap (fs fileA) = .ok a)
    (hb : getMap (fs fileB) = .error e) :
    diff fs run fileA fileB = ([fileA, fileB], .error e) := by
  unfold diff
  rw [ha]
  simp only [hb]

/-- The function `getMap` fails exactly on a failed read. -/
theorem getMap_error_iff (f : FileRead) : (∃ e, getMap f = .error e) ↔ ReadFails f := by
  unfold getMap ReadFails
  cases f with
  | openError err => simp
  | scanned lines err => cases err <;> simp

/-- Every result of `getMap` is an error or a map. -/
theorem getMap_cases (f : FileRead) : (∃ e, getMap f = .error e) ∨ ∃ m, getMap f = .ok m := by
  cases h : getMap f with
  | error e => exact Or.inl ⟨e, rfl⟩
  | ok m => exact Or.inr ⟨m, rfl⟩

/-- A successful `diff` has read both files, and its result is built from the two maps. -/
theorem diff_ok_inv (fs : String → FileRead) (run : Comparator) (fileA fileB : String)
    (d : DiffResult) (hd : (diff fs run fileA fileB).2 = .ok d) :
    ∃ a b, getMap (fs fileA) = .ok a ∧ getMap (fs fileB) = .ok b ∧
      d = { Deleted := (diffVersionInfo a b).1, Added := (diffVersionInfo a b).2.1,
            Changed := (diffVersionInfo a b).2.2.entries.foldl (diffStepChanged run) ∅ } := by
  rcases getMap_cases (fs fileA) with ⟨e, ha⟩ | ⟨a, ha⟩
  · rw [diff_of_errorA fs run fileA fileB e ha] at hd
    cases hd
  · rcases getMap_cases (fs fileB) with ⟨e, hb⟩ | ⟨b, hb⟩
    · rw [diff_of_errorB fs run fileA fileB a e ha hb] at hd
      cases hd
    · rw [diff_of_ok fs run fileA fileB a b ha hb] at hd
      refine ⟨a, b, ha, hb, ?_⟩
      simp only [Except.ok.injEq] at hd
      exact hd.symm

/-- An entry of the classified map comes from an entry of `changed`, and its
flag is the comparator's verdict. -/
theorem classified_entry (run : Comparator) (c : PairMap) (k : String) (vc : VersionChanged)
    (h : (c.entries.foldl (diffStepChanged run) ∅).lookup k = some vc) :
    c.lookup k = some (vc.From, vc.To) ∧ vc.Upgrade = (run vc.From vc.To).isNone := by
  rw [classified_lookup] at h
  cases hc : c.lookup k with
  | none => rw [hc] at h; cases h
  | some p =>
    rw [hc] at h
    simp only [Option.map_some', Option.some.injEq] at h
    subst h
    exact ⟨rfl, rfl⟩

/-! ## The classifier and `diff`: results -/

/-- C11: with the comparator injected as `run` (`none` when the command exited
successfully): every entry of `Changed` in the result of `diff` has `Upgrade`
true exactly when `run From To` reports success, and `Upgrade` false on every
other outcome; and the comparator cannot make `diff` fail: an error of `diff`
is the same error under every comparator, and so is its success. -/
theorem diff_upgrade_iff (fs : String → FileRead) (run : Comparator) (fileA fileB : String) :
    (∀ d k vc, (diff fs run fileA fileB).2 = .ok d → d.Changed.lookup k = some vc →
      (vc.Upgrade = true ↔ run vc.From vc.To = none) ∧
        (run vc.From vc.To ≠ none → vc.Upgrade = false)) ∧
    (∀ e, (diff fs run fileA fileB).2 = .error e →
      ∀ run2 : Comparator, (diff fs run2 fileA fileB).2 = .error e) ∧
    (∀ d, (diff fs run fileA fileB).2 = .ok d →
      ∀ run2 : Comparator, ∃ d2, (diff fs run2 fileA fileB).2 = .ok d2) := by
  refine ⟨?_, ?_, ?_⟩
  · intro d k vc hd hk
    obtain ⟨a, b, _, _, rfl⟩ := diff_ok_inv fs run fileA fileB d hd
    obtain ⟨_, hu⟩ := classified_entry run _ k vc hk
    rw [hu]
    cases run vc.From vc.To <;> simp
  · intro e he run2
    rcases getMap_cases (fs fileA) with ⟨e1, ha⟩ | ⟨a, ha⟩
    · rw [diff_of_errorA fs run fileA fileB e1 ha] at he
      rw [diff_of_errorA fs run2 fileA fileB e1 ha]
      exact he
    · rcases getMap_cases (fs fileB) with ⟨e1, hb⟩ | ⟨b, hb⟩
      · rw [diff_of_errorB fs run fileA fileB a e1 ha hb] at he
        rw [diff_of_errorB fs run2 fileA fileB a e1 ha hb]
        exact he
      · rw [diff_of_ok fs run fileA fileB a b ha hb] at he
        cases he
  · intro d hd run2
    obtain ⟨a, b, ha, hb, _⟩ := diff_ok_inv fs run fileA fileB d hd
    rw [diff_of_ok fs run2 fileA fileB a b ha hb]
    exact ⟨_, rfl⟩

/-- Witness for C11: `foo` goes from `1.0` to `2.0` and `bar` from `3` to `2`,
under a comparator that succeeds on `1.0 < 2.0` only. -/
theorem diff_upgrade_iff_witness :
    ∃ d, (diff sampleFs sampleRun "A" "B").2 = .ok d ∧
      d.Changed.lookup "foo" = some { From := "1.0", To := "2.0", Upgrade := true } ∧
      d.Changed.lookup "bar" = some { From := "3", To := "2", Upgrade := false } ∧
      (true = true ↔ sampleRun "1.0" "2.0" = none) ∧
      (false = true ↔ sampleRun "3" "2" = none) := by
  have h := (diff_upgrade_iff sampleFs sampleRun "A" "B").1
  refine ⟨_, rfl, by decide, by decide, ?_, ?_⟩
  · exact (h _ "foo" { From := "1.0", To := "2.0", Upgrade := true } rfl (by decide)).1
  · exact (h _ "bar" { From := "3", To := "2", Upgrade := false } rfl (by decide)).1

/-- C16: `diff` returns an error exactly when reading `fileA` or `fileB` fails;
then there is no `DiffResult`, and `main` writes nothing to standard output and
ends in `log.Fatal` with that error; when both reads succeed `diff` returns a
`DiffResult` and no error. -/
theorem diff_error_iff (fs : String → FileRead) (run : Comparator) (fileA fileB : String) :
    ((∃ e, (diff fs run fileA fileB).2 = .error e) ↔
      ReadFails (fs fileA) ∨ ReadFails (fs fileB)) ∧
    (∀ e, (diff fs run fileA fileB).2 = .error e → ∀ prog,
      (main fs run [prog, fileA, fileB]).stdout = [] ∧
        (main fs run [prog, fileA, fileB]).fatal = some e) ∧
    ((¬ReadFails (fs fileA) ∧ ¬ReadFails (fs fileB)) ↔
      ∃ d, (diff fs run fileA fileB).2 = .ok d) := by
  rw [← getMap_error_iff, ← getMap_error_iff]
  refine ⟨?_, ?_, ?_⟩
  · rcases getMap_cases (fs fileA) with ⟨e1, ha⟩ | ⟨a, ha⟩
    · rw [diff_of_errorA fs run fileA fileB e1 ha]
      exact ⟨fun _ => Or.inl ⟨e1, ha⟩, fun _ => ⟨e1, rfl⟩⟩
    · rcases getMap_cases (fs fileB) with ⟨e1, hb⟩ | ⟨b, hb⟩
      · rw [diff_of_errorB fs run fileA fileB a e1 ha hb]
        exact ⟨fun _ => Or.inr ⟨e1, hb⟩, fun _ => ⟨e1, rfl⟩⟩
      · rw [diff_of_ok fs run fileA fileB a b ha hb, ha, hb]
        simp
  · intro e he prog
    have hm : main fs run [prog, fileA, fileB] =
        { opened := (diff fs run fileA fileB).1, stdout := [], fatal := some e } := by
      unfold main
      simp only [List.length_cons, List.length_nil, List.getD_cons_succ, List.getD_cons_zero]
      revert he
      cases diff fs run fileA fileB with
      | mk o r =>
        intro he
        simp only at he
        subst he
        rfl
    rw [hm]
    exact ⟨rfl, rfl⟩
  · rcases getMap_cases (fs fileA) with ⟨e1, ha⟩ | ⟨a, ha⟩
    · rw [diff_of_errorA fs run fileA fileB e1 ha, ha]
      simp
    · rcases getMap_cases (fs fileB) with ⟨e1, hb⟩ | ⟨b, hb⟩
      · rw [diff_of_errorB fs run fileA fileB a e1 ha hb, hb]
        simp
      · rw [diff_of_ok fs run fileA fileB a b ha hb, ha, hb]
        simp

/-- Witness for C16: the first file cannot be opened; `diff` returns the open
error, the second file is not opened and nothing is printed. -/
theorem diff_error_iff_witness :
    ReadFails (sampleFs "missing") ∧
      main sampleFs sampleRun ["prog", "missing", "B"] =
        { opened := ["missing"], stdout := [],
          fatal := some "open missing: no such file or directory" } ∧
      (main sampleFs sampleRun ["prog", "missing", "B"]).stdout = [] := by
  have h := (diff_error_iff sampleFs sampleRun "missing" "B").2.1
    "open missing: no such file or directory" rfl "prog"
  exact ⟨by decide, by decide, h.1⟩

/-- C17: when `os.Args` does not have exactly three entries (the program name
and two file arguments), `main` opens no file, writes nothing to standard output
and does not end in `log.Fatal`, whatever the files hold and the comparator says. -/
theorem main_wrong_arg_count (fs : String → FileRead) (run : Comparator) (args : List String)
    (h : args.length ≠ 3) :
    main fs run args = { opened := [], stdout := [], fatal := none } := by
  unfold main
  rw [if_neg h]

/-- Witness for C17: one file argument only. -/
theorem main_wrong_arg_count_witness :
    main sampleFs sampleRun ["prog", "A"] = { opened := [], stdout := [], fatal := none } :=
  main_wrong_arg_count sampleFs sampleRun ["prog", "A"] (by decide)

/-- C20: when both files are parsed into `a` and `b`, `diff` returns a result
whose `Deleted` and `Added` are the deleted and added maps of
`diffVersionInfo a b`, whose `Changed` has the keys of its changed map, each
entry with `From = a[k]` and `To = b[k]`; under another comparator the result
has the same `Deleted`, `Added` and the same `From`, `To` at every key. -/
theorem diff_frame (fs : String → FileRead) (run : Comparator) (fileA fileB : String)
    (a b : StrMap) (ha : getMap (fs fileA) = .ok a) (hb : getMap (fs fileB) = .ok b) :
    ∃ d, (diff fs run fileA fileB).2 = .ok d ∧
      d.Deleted = (diffVersionInfo a b).1 ∧ d.Added = (diffVersionInfo a b).2.1 ∧
      (∀ k, k ∈ d.Changed ↔ k ∈ (diffVersionInfo a b).2.2) ∧
      (∀ k vc, d.Changed.lookup k = some vc →
        (diffVersionInfo a b).2.2.lookup k = some (vc.From, vc.To) ∧
          a.lookup k = some vc.From ∧ b.lookup k = some vc.To) ∧
      ∀ run2 : Comparator, ∃ d2, (diff fs run2 fileA fileB).2 = .ok d2 ∧
        d2.Deleted = d.Deleted ∧ d2.Added = d.Added ∧
        ∀ k, (d2.Changed.lookup k).map (fun v => (v.From, v.To)) =
          (d.Changed.lookup k).map (fun v => (v.From, v.To)) := by
  refine ⟨{ Deleted := (diffVersionInfo a b).1, Added := (diffVersionInfo a b).2.1,
            Changed := (diffVersionInfo a b).2.2.entries.foldl (diffStepChanged run) ∅ },
    by rw [diff_of_ok fs run fileA fileB a b ha hb], rfl, rfl, ?_, ?_, ?_⟩
  · intro k
    show k ∈ ((diffVersionInfo a b).2.2.entries.foldl (diffStepChanged run) ∅) ↔ _
    rw [mem_iff_lookup, mem_iff_lookup, classified_lookup]
    cases (diffVersionInfo a b).2.2.lookup k <;> simp
  · intro k vc hk
    obtain ⟨hc, _⟩ := classified_entry run _ k vc hk
    obtain ⟨h1, h2, _⟩ := ((diffVersionInfo_changed_lookup a b k) vc.From vc.To).mp hc
    exact ⟨hc, h1, h2⟩
  · intro run2
    refine ⟨{ Deleted := (diffVersionInfo a b).1, Added := (diffVersionInfo a b).2.1,
              Changed := (diffVersionInfo a b).2.2.entries.foldl (diffStepChanged run2) ∅ },
      by rw [diff_of_ok fs run2 fileA fileB a b ha hb], rfl, rfl, ?_⟩
    intro k
    simp only [classified_lookup]
    cases (diffVersionInfo a b).2.2.lookup k <;> rfl

/-- Witness for C20 on the sample file system, whose two files parse. -/
theorem diff_frame_witness :
    ∃ d, (diff sampleFs sampleRun "A" "B").2 = .ok d ∧
      d.Deleted = (diffVersionInfo (scanLines ["ii foo 1.0", "ii bar 3", "ii old 1"])
        (scanLines ["ii foo 2.0", "ii bar 2", "ii new 1"])).1 ∧
      "foo" ∈ d.Changed := by
  obtain ⟨d, hd, h1, _, h3, _⟩ := diff_frame sampleFs sampleRun "A" "B"
    (scanLines ["ii foo 1.0", "ii bar 3", "ii old 1"])
    (scanLines ["ii foo 2.0", "ii bar 2", "ii new 1"]) rfl rfl
  exact ⟨d, hd, h1, (h3 "foo").mpr (by decide)⟩

/-! ## Splitting the architecture off the name -/

/-- Without a colon nothing is cut. -/
theorem cutColon_of_not_mem : ∀ l : List Char, ':' ∉ l → cutColon l = none := by
  intro l
  induction l with
  | nil => intro _; rfl
  | cons c cs ih =>
    intro h
    have hc : c ≠ ':' := fun e => h (by rw [e]; exact List.mem_cons_self _ _)
    have hcs : ':' ∉ cs := fun e => h (List.mem_cons_of_mem _ e)
    simp [cutColon, hc, ih hcs]

/-- The cut is at the first colon. -/
theorem cutColon_append : ∀ (p r : List Char), ':' ∉ p →
    cutColon (p ++ ':' :: r) = some (p, r) := by
  intro p
  induction p with
  | nil => intro r _; simp [cutColon]
  | cons c cs ih =>
    intro r h
    have hc : c ≠ ':' := fun e => h (by rw [e]; exact List.mem_cons_self _ _)
    have hcs : ':' ∉ cs := fun e => h (List.mem_cons_of_mem _ e)
    simp [cutColon, hc, ih r hcs]

/-- A list with a colon splits at its first colon. -/
theorem exists_first_colon : ∀ l : List Char, ':' ∈ l →
    ∃ p r, l = p ++ ':' :: r ∧ ':' ∉ p := by
  intro l
  induction l with
  | nil => intro h; cases h
  | cons c cs ih =>
    intro h
    by_cases hc : c = ':'
    · exact ⟨[], cs, by simp [hc], by simp⟩
    · have hcs : ':' ∈ cs := by
        rcases List.mem_cons.mp h with e | e
        · exact absurd e.symm hc
        · exact e
      obtain ⟨p, r, hl, hp⟩ := ih hcs
      refine ⟨c :: p, r, by simp [hl], ?_⟩
      intro e
      rcases List.mem_cons.mp e with e | e
      · exact hc e.symm
      · exact hp e

/-- The result of `splitPkgNameAndArch` on a string without colon. -/
theorem splitPkgNameAndArch_of_not_mem (s : String) (h : ':' ∉ s.data) :
    splitPkgNameAndArch s = (s, "") := by
  unfold splitPkgNameAndArch splitN2
  rw [cutColon_of_not_mem s.data h]

/-- The result of `splitPkgNameAndArch` on a string cut at its first colon. -/
theorem splitPkgNameAndArch_of_cut (s : String) (p r : List Char)
    (hs : s.data = p ++ ':' :: r) (hp : ':' ∉ p) :
    splitPkgNameAndArch s = (String.mk p, String.mk r) := by
  unfold splitPkgNameAndArch splitN2
  rw [hs, cutColon_append p r hp]

/-- C18: `splitPkgNameAndArch` splits at the first `':'` only.  A string without
`':'` comes back whole with the empty architecture; `p ++ ":" ++ r` with no
`':'` in `p` gives `(p, r)`, whatever `r` holds; the name never contains `':'`;
and when `s` contains `':'`, `name ++ ":" ++ arch` is `s`. -/
theorem splitPkgNameAndArch_first_colon (s : String) :
    (':' ∉ s.data → splitPkgNameAndArch s = (s, "")) ∧
    (∀ p r : String, ':' ∉ p.data → splitPkgNameAndArch (p ++ ":" ++ r) = (p, r)) ∧
    ':' ∉ (splitPkgNameAndArch s).1.data ∧
    (':' ∈ s.data →
      (splitPkgNameAndArch s).1 ++ ":" ++ (splitPkgNameAndArch s).2 = s) := by
  refine ⟨splitPkgNameAndArch_of_not_mem s, ?_, ?_, ?_⟩
  · intro p r hp
    have hd : (p ++ ":" ++ r).data = p.data ++ ':' :: r.data := by
      simp [String.data_append]
    rw [splitPkgNameAndArch_of_cut _ p.data r.data hd hp]
  · by_cases h : ':' ∈ s.data
    · obtain ⟨p, r, hs, hp⟩ := exists_first_colon s.data h
      rw [splitPkgNameAndArch_of_cut s p r hs hp]
      exact hp
    · rw [splitPkgNameAndArch_of_not_mem s h]
      exact h
  · intro h
    obtain ⟨p, r, hs, hp⟩ := exists_first_colon s.data h
    rw [splitPkgNameAndArch_of_cut s p r hs hp]
    apply String.ext
    simp [String.data_append, hs]

/-- Witness for C18: no colon, one colon, and two colons. -/
theorem splitPkgNameAndArch_first_colon_witness :
    splitPkgNameAndArch "libc6" = ("libc6", "") ∧
      splitPkgNameAndArch ("libc6" ++ ":" ++ "amd64") = ("libc6", "amd64") ∧
      splitPkgNameAndArch ("a" ++ ":" ++ "b:c") = ("a", "b:c") ∧
      (splitPkgNameAndArch "a:b:c").1 ++ ":" ++ (splitPkgNameAndArch "a:b:c").2 = "a:b:c" :=
  ⟨(splitPkgNameAndArch_first_colon "libc6").1 (by decide),
    (splitPkgNameAndArch_first_colon "").2.1 "libc6" "amd64" (by decide),
    (splitPkgNameAndArch_first_colon "").2.1 "a" "b:c" (by decide),
    (splitPkgNameAndArch_first_colon "a:b:c").2.2.2 (by decide)⟩

/-! ## The diff as a patch -/

/-- Looking a key up after a list of keys has been removed. -/
theorem lookup_foldl_erase (k : String) :
    ∀ (keys : List String) (m : StrMap),
      (keys.foldl (fun m k => m.erase k) m).lookup k =
        if k ∈ keys then none else m.lookup k := by
  intro keys
  induction keys with
  | nil => intro m; simp
  | cons x t ih =>
    intro m
    rw [List.foldl_cons, ih]
    by_cases hx : k = x
    · subst hx
      simp [AList.lookup_erase]
    · by_cases ht : k ∈ t
      · simp [ht]
      · simp [ht, hx, AList.lookup_erase_ne hx]

/-- Looking a key up after the values of the keys of `l` have been replaced. -/
theorem lookup_foldl_replace (k : String) :
    ∀ (l : List (Σ _ : String, String × String)), l.NodupKeys → ∀ m : StrMap,
      (l.foldl (fun m e => if e.1 ∈ m then m.insert e.1 e.2.2 else m) m).lookup k =
        match l.dlookup k with
        | some p => (m.lookup k).map fun _ => p.2
        | none => m.lookup k := by
  intro l
  induction l with
  | nil => intro _ m; simp
  | cons e t ih =>
    intro hnd m
    obtain ⟨hk, ht⟩ := List.nodupKeys_cons.mp hnd
    rw [List.foldl_cons, ih ht]
    by_cases h : k = e.1
    · subst h
      have hnone : t.dlookup e.1 = none := List.dlookup_eq_none.mpr hk
      rw [hnone, List.dlookup_cons_eq]
      by_cases hm : e.1 ∈ m
      · obtain ⟨v, hv⟩ := (mem_iff_lookup m e.1).mp hm
        simp [hm, hv, AList.lookup_insert]
      · have hv : m.lookup e.1 = none := AList.lookup_eq_none.mpr hm
        simp [hm, hv]
    · rw [List.dlookup_cons_ne _ _ h]
      have hst : (if e.1 ∈ m then m.insert e.1 e.2.2 else m).lookup k = m.lookup k := by
        by_cases hm : e.1 ∈ m
        · simp [hm, AList.lookup_insert_ne h]
        · simp [hm]
      rw [hst]

/-- Looking a key up after the entries of `l` have been inserted. -/
theorem lookup_foldl_insert (k : String) :
    ∀ (l : List (Σ _ : String, String)), l.NodupKeys → ∀ m : StrMap,
      (l.foldl (fun m e => m.insert e.1 e.2) m).lookup k =
        match l.dlookup k with
        | some v => some v
        | none => m.lookup k := by
  intro l
  induction l with
  | nil => intro _ m; simp
  | cons e t ih =>
    intro hnd m
    obtain ⟨hk, ht⟩ := List.nodupKeys_cons.mp hnd
    rw [List.foldl_cons, ih ht]
    by_cases h : k = e.1
    · subst h
      have hnone : t.dlookup e.1 = none := List.dlookup_eq_none.mpr hk
      rw [hnone, List.dlookup_cons_eq]
      simp [AList.lookup_insert]
    · rw [List.dlookup_cons_ne _ _ h]
      simp [AList.lookup_insert_ne h]

/-- Content of the map built by `applyDiff`. -/
theorem applyDiff_lookup (a deleted added : StrMap) (changed : PairMap) (k : String) :
    (applyDiff a deleted added changed).lookup k =
      match added.lookup k with
      | some v => some v
      | none =>
        match changed.lookup k with
        | some p => (if (deleted.lookup k).isSome then none else a.lookup k).map fun _ => p.2
        | none => if (deleted.lookup k).isSome then none else a.lookup k := by
  unfold applyDiff
  simp only
  rw [lookup_foldl_insert k added.entries added.nodupKeys,
    lookup_foldl_replace k changed.entries changed.nodupKeys, lookup_foldl_erase]
  have hdec : (if k ∈ deleted.keys then none else a.lookup k) =
      (if (deleted.lookup k).isSome then none else a.lookup k) := by
    by_cases h : k ∈ deleted.keys
    · have h2 : (deleted.lookup k).isSome = true :=
        AList.lookup_isSome.mpr (AList.mem_keys.mpr h)
      rw [if_pos h, if_pos h2]
    · have h2 : ¬(deleted.lookup k).isSome = true :=
        fun e => h (AList.mem_keys.mp (AList.lookup_isSome.mp e))
      rw [if_neg h, if_neg h2]
  rw [hdec]
  rfl

/-- C19: the diff is a complete patch from `a` to `b`: removing from `a` the
keys of `deleted`, replacing the value of every key of `changed` by the second
component of its pair and inserting the entries of `added` gives a map with the
content of `b` (the same result of lookup at every key). -/
theorem applyDiff_diffVersionInfo (a b : StrMap) (k : String) :
    (applyDiff a (diffVersionInfo a b).1 (diffVersionInfo a b).2.1
      (diffVersionInfo a b).2.2).lookup k = b.lookup k := by
  rw [applyDiff_lookup, added_lookup, changed_lookup, deleted_lookup]
  cases ha : a.lookup k with
  | none => cases hb : b.lookup k <;> simp
  | some va =>
    cases hb : b.lookup k with
    | none => simp
    | some vb => by_cases hv : va = vb <;> simp [hv]

/-! ## No line break in what the parser stores -/

/-- The fields cut by `fieldsLoop` hold no character on which `f` is true. -/
theorem fieldsLoop_no_sep (f : Char → Bool) :
    ∀ (cs : List Char) (cur : Option (List Char)) (acc : List String),
      (∀ w, cur = some w → ∀ c ∈ w, f c = false) →
      (∀ s ∈ acc, ∀ c ∈ s.data, f c = false) →
      ∀ s ∈ fieldsLoop f cs cur acc, ∀ c ∈ s.data, f c = false := by
  intro cs
  induction cs with
  | nil =>
    intro cur acc hcur hacc s hs
    cases cur with
    | none =>
      simp only [fieldsLoop, List.mem_reverse] at hs
      exact hacc s hs
    | some w =>
      simp only [fieldsLoop, List.reverse_cons, List.mem_append, List.mem_reverse,
        List.mem_singleton] at hs
      rcases hs with hs | hs
      · exact hacc s hs
      · subst hs
        intro c hc
        exact hcur w rfl c (List.mem_reverse.mp hc)
  | cons x xs ih =>
    intro cur acc hcur hacc s hs
    cases cur with
    | none =>
      by_cases hx : f x = true
      · simp only [fieldsLoop, hx, ↓reduceIte] at hs
        exact ih none acc (fun w hw => by cases hw) hacc s hs
      · simp only [fieldsLoop, hx, Bool.false_eq_true, ↓reduceIte] at hs
        refine ih (some [x]) acc ?_ hacc s hs
        intro w hw c hc
        cases hw
        rw [List.mem_singleton.mp hc]
        simpa using hx
    | some w =>
      by_cases hx : f x = true
      · simp only [fieldsLoop, hx, ↓reduceIte] at hs
        refine ih none _ (fun w hw => by cases hw) ?_ s hs
        intro t ht
        rcases List.mem_cons.mp ht with ht | ht
        · subst ht
          intro c hc
          exact hcur w rfl c (List.mem_reverse.mp hc)
        · exact hacc t ht
      · simp only [fieldsLoop, hx, Bool.false_eq_true, ↓reduceIte] at hs
        refine ih (some (x :: w)) acc ?_ hacc s hs
        intro w2 hw2 c hc
        cases hw2
        rcases List.mem_cons.mp hc with hc | hc
        · rw [hc]; simpa using hx
        · exact hcur w rfl c hc

/-- A field holds no line break, a line break being a space for `strings.Fields`. -/
theorem fields_noNewline (text s : String) (hs : s ∈ fields text) : NoNewline s := by
  intro hmem
  have h := fieldsLoop_no_sep isSpace text.data none [] (fun w hw => by cases hw)
    (fun s hs => by cases hs) s hs '\n' hmem
  exact absurd h (by decide)

/-- The name returned by `splitPkgNameAndArch` is made of characters of its argument. -/
theorem splitPkgNameAndArch_name_subset (s : String) :
    ∀ c ∈ (splitPkgNameAndArch s).1.data, c ∈ s.data := by
  intro c hc
  by_cases h : ':' ∈ s.data
  · obtain ⟨p, r, hs, hp⟩ := exists_first_colon s.data h
    rw [splitPkgNameAndArch_of_cut s p r hs hp] at hc
    rw [hs]
    exact List.mem_append_left _ hc
  · rw [splitPkgNameAndArch_of_not_mem s h] at hc
    exact hc

/-- The entry stored by a line holds no line break. -/
theorem lineEntry_noNewline (text n v : String) (h : lineEntry text = some (n, v)) :
    NoNewline n ∧ NoNewline v := by
  unfold lineEntry at h
  rcases hf : fields text with _ | ⟨f0, _ | ⟨f1, _ | ⟨f2, rest⟩⟩⟩
  · rw [hf] at h; cases h
  · rw [hf] at h; cases h
  · rw [hf] at h; cases h
  · rw [hf] at h
    have h1 : NoNewline f1 := fields_noNewline text f1 (by rw [hf]; simp)
    have h2 : NoNewline f2 := fields_noNewline text f2 (by rw [hf]; simp)
    by_cases h0 : f0 = "ii"
    · by_cases ha : (splitPkgNameAndArch f1).2 = "i386"
      · simp [h0, ha] at h
      · simp only [h0, ha, ↓reduceIte, Option.some.injEq, Prod.mk.injEq] at h
        obtain ⟨hn, hv⟩ := h
        subst hn hv
        exact ⟨fun hc => h1 (splitPkgNameAndArch_name_subset f1 _ hc), h2⟩
    · simp [h0] at h

/-- The scan loop keeps maps clean. -/
theorem foldl_scanLine_clean :
    ∀ (lines : List String) (m : StrMap), CleanMap m → CleanMap (lines.foldl scanLine m) := by
  intro lines
  induction lines with
  | nil => intro m hm; exact hm
  | cons x t ih =>
    intro m hm
    rw [List.foldl_cons]
    apply ih
    rw [scanLine_eq]
    cases he : lineEntry x with
    | none => exact hm
    | some e =>
      intro k v hkv
      by_cases hk : k = e.1
      · subst hk
        simp only [AList.lookup_insert, Option.some.injEq] at hkv
        subst hkv
        exact lineEntry_noNewline x e.1 e.2 he
      · simp only [AList.lookup_insert_ne hk] at hkv
        exact hm k v hkv

/-- A map returned by `getMap` is clean. -/
theorem getMap_clean (f : FileRead) (m : StrMap) (h : getMap f = .ok m) : CleanMap m := by
  unfold getMap at h
  cases f with
  | openError err => cases h
  | scanned lines err =>
    cases err with
    | some e => cases h
    | none =>
      simp only [Except.ok.injEq] at h
      subst h
      exact foldl_scanLine_clean lines ∅ (fun k v hkv => by simp at hkv)

/-- A string put together from two strings without line break has none. -/
theorem noNewline_append (s t : String) (hs : NoNewline s) (ht : NoNewline t) :
    NoNewline (s ++ t) := by
  unfold NoNewline at *
  rw [String.data_append, List.mem_append]
  rintro (h | h)
  · exact hs h
  · exact ht h

/-- A line printed from operands without line break has none. -/
theorem println_noNewline :
    ∀ ops : List String, (∀ s ∈ ops, NoNewline s) → NoNewline (println ops) := by
  intro ops
  induction ops with
  | nil => intro _; unfold println; decide
  | cons a t ih =>
    intro h
    cases t with
    | nil => exact h a (List.mem_cons_self _ _)
    | cons b rest =>
      unfold println
      refine noNewline_append _ _ (noNewline_append _ _ (h a (List.mem_cons_self _ _))
        (by decide)) (ih ?_)
      intro s hs
      exact h s (List.mem_cons_of_mem _ hs)

/-! ## Lemmas on the reporter -/

/-- The sorted keys are the keys, rearranged. -/
theorem sortStrings_perm (keys : List String) : (sortStrings keys).Perm keys :=
  List.perm_insertionSort _ keys

/-- The order used by `sortStrings` is the order of `String`. -/
theorem data_lt_iff (a b : String) : a.data < b.data ↔ a < b :=
  String.lt_iff_toList_lt.symm

/-- Distinct keys come out of `sortStrings` in strictly increasing order. -/
theorem sortStrings_sorted (keys : List String) (hnd : keys.Nodup) :
    (sortStrings keys).Sorted (· < ·) := by
  have htotal : IsTotal String (fun a b => a.data ≤ b.data) :=
    ⟨fun a b => le_total a.data b.data⟩
  have htrans : IsTrans String (fun a b => a.data ≤ b.data) :=
    ⟨fun a b c hab hbc => le_trans hab hbc⟩
  have hs : (sortStrings keys).Sorted (fun a b => a.data ≤ b.data) :=
    List.sorted_insertionSort _ keys
  have hnd2 : (sortStrings keys).Nodup := (sortStrings_perm keys).nodup_iff.mpr hnd
  have hboth := List.Pairwise.and hs hnd2
  refine List.Pairwise.imp ?_ hboth
  intro a b hab
  obtain ⟨hle, hne⟩ := hab
  rw [← data_lt_iff]
  refine lt_of_le_of_ne hle ?_
  intro e
  exact hne (String.ext e)

/-- The lines `main` prints after a successful `diff` are those of `report`. -/
theorem main_of_ok (fs : String → FileRead) (run : Comparator) (prog fileA fileB : String)
    (d : DiffResult) (hd : (diff fs run fileA fileB).2 = .ok d) :
    main fs run [prog, fileA, fileB] =
      { opened := (diff fs run fileA fileB).1, stdout := report d, fatal := none } := by
  unfold main
  simp only [List.length_cons, List.length_nil, List.getD_cons_succ, List.getD_cons_zero]
  revert hd
  cases diff fs run fileA fileB with
  | mk o r =>
    intro hd
    simp only at hd
    subst hd
    rfl

/-- An entry of `deleted` is an entry of `a`. -/
theorem deleted_sub (a b : StrMap) (k v : String)
    (h : (diffVersionInfo a b).1.lookup k = some v) : a.lookup k = some v := by
  rw [deleted_lookup] at h
  cases ha : a.lookup k with
  | none => rw [ha] at h; cases h
  | some va =>
    rw [ha] at h
    by_cases hb : b.lookup k = none
    · simpa [hb] using h
    · simp [hb] at h

/-- An entry of `added` is an entry of `b`. -/
theorem added_sub (a b : StrMap) (k v : String)
    (h : (diffVersionInfo a b).2.1.lookup k = some v) : b.lookup k = some v := by
  rw [added_lookup] at h
  cases hb : b.lookup k with
  | none => rw [hb] at h; cases h
  | some vb =>
    rw [hb] at h
    by_cases ha : a.lookup k = none
    · simpa [ha] using h
    · simp [ha] at h

/-- A result of `diff` holds no line break in its keys and versions. -/
theorem diff_clean (fs : String → FileRead) (run : Comparator) (fileA fileB : String)
    (d : DiffResult) (hd : (diff fs run fileA fileB).2 = .ok d) :
    CleanMap d.Deleted ∧ CleanMap d.Added ∧
      ∀ k vc, d.Changed.lookup k = some vc →
        NoNewline k ∧ NoNewline vc.From ∧ NoNewline vc.To := by
  obtain ⟨a, b, ha, hb, rfl⟩ := diff_ok_inv fs run fileA fileB d hd
  have hca := getMap_clean _ a ha
  have hcb := getMap_clean _ b hb
  refine ⟨?_, ?_, ?_⟩
  · intro k v h
    exact hca k v (deleted_sub a b k v h)
  · intro k v h
    exact hcb k v (added_sub a b k v h)
  · intro k vc h
    obtain ⟨hc, _⟩ := classified_entry run _ k vc h
    obtain ⟨h1, h2, _⟩ := (diffVersionInfo_changed_lookup a b k vc.From vc.To).mp hc
    exact ⟨(hca k _ h1).1, (hca k _ h1).2, (hcb k _ h2).2⟩

/-- No line of the report holds a line break when the result holds none. -/
theorem report_noNewline (d : DiffResult) (hD : CleanMap d.Deleted) (hA : CleanMap d.Added)
    (hC : ∀ k vc, d.Changed.lookup k = some vc →
      NoNewline k ∧ NoNewline vc.From ∧ NoNewline vc.To) :
    ∀ line ∈ report d, NoNewline line := by
  intro line hline
  unfold report at hline
  simp only [List.mem_append, List.mem_map] at hline
  rcases hline with (⟨k, hk, rfl⟩ | ⟨k, hk, rfl⟩) | ⟨k, hk, rfl⟩
  · have hmem : k ∈ d.Deleted := AList.mem_keys.mpr ((sortStrings_perm _).mem_iff.mp hk)
    obtain ⟨v, hv⟩ := (mem_iff_lookup _ k).mp hmem
    unfold deletedLine
    rw [hv]
    apply println_noNewline
    intro s hs
    simp only [Option.getD_some, List.mem_cons, List.mem_singleton, List.not_mem_nil,
      or_false] at hs
    rcases hs with rfl | rfl | rfl
    · decide
    · exact (hD _ v hv).1
    · exact (hD k _ hv).2
  · have hmem : k ∈ d.Added := AList.mem_keys.mpr ((sortStrings_perm _).mem_iff.mp hk)
    obtain ⟨v, hv⟩ := (mem_iff_lookup _ k).mp hmem
    unfold addedLine
    rw [hv]
    apply println_noNewline
    intro s hs
    simp only [Option.getD_some, List.mem_cons, List.mem_singleton, List.not_mem_nil,
      or_false] at hs
    rcases hs with rfl | rfl | rfl
    · decide
    · exact (hA _ v hv).1
    · exact (hA k _ hv).2
  · have hmem : k ∈ d.Changed := AList.mem_keys.mpr ((sortStrings_perm _).mem_iff.mp hk)
    obtain ⟨vc, hv⟩ := (mem_iff_lookup _ k).mp hmem
    obtain ⟨h1, h2, h3⟩ := hC k vc hv
    unfold changedLine
    rw [hv]
    apply println_noNewline
    intro s hs
    simp only [Option.getD_some, List.mem_cons, List.mem_singleton, List.not_mem_nil,
      or_false] at hs
    rcases hs with rfl | rfl | rfl | rfl | rfl
    · by_cases hu : vc.Upgrade = true
      · rw [if_pos hu]; decide
      · rw [if_neg hu]; decide
    · exact h1
    · exact h2
    · decide
    · exact h3

/-! ## The reporter -/

/-- C12: for every `DiffResult` the report is three consecutive groups of lines,
for `Deleted`, `Added` and `Changed` in this order; each group has one line for
each key of its map (its keys are a rearrangement of the keys of the map), in
strictly increasing order of the key; so the number of lines is
`|Deleted| + |Added| + |Changed|`.  It is what `main` prints when `diff` returns
this result, and then no printed line holds a line break, so that each of them
is one line of the output text. -/
theorem report_groups (d : DiffResult) :
    (∃ kd ka kc : List String,
      report d = kd.map (deletedLine d) ++ ka.map (addedLine d) ++ kc.map (changedLine d) ∧
      kd.Perm d.Deleted.keys ∧ ka.Perm d.Added.keys ∧ kc.Perm d.Changed.keys ∧
      kd.Sorted (· < ·) ∧ ka.Sorted (· < ·) ∧ kc.Sorted (· < ·)) ∧
    (report d).length =
      d.Deleted.keys.length + d.Added.keys.length + d.Changed.keys.length ∧
    ∀ (fs : String → FileRead) (run : Comparator) (prog fileA fileB : String),
      (diff fs run fileA fileB).2 = .ok d →
        (main fs run [prog, fileA, fileB]).stdout = report d ∧
          ∀ line ∈ report d, NoNewline line := by
  refine ⟨⟨getSortedKeysMapSS d.Deleted, getSortedKeysMapSS d.Added,
    getSortedKeysMapSVc d.Changed, rfl, sortStrings_perm _, sortStrings_perm _,
    sortStrings_perm _, sortStrings_sorted _ d.Deleted.keys_nodup,
    sortStrings_sorted _ d.Added.keys_nodup, sortStrings_sorted _ d.Changed.keys_nodup⟩, ?_, ?_⟩
  · unfold report getSortedKeysMapSS getSortedKeysMapSVc
    simp only [List.length_append, List.length_map]
    rw [(sortStrings_perm _).length_eq, (sortStrings_perm _).length_eq,
      (sortStrings_perm _).length_eq]
  · intro fs run prog fileA fileB hd
    rw [main_of_ok fs run prog fileA fileB d hd]
    obtain ⟨h1, h2, h3⟩ := diff_clean fs run fileA fileB d hd
    exact ⟨rfl, report_noNewline d h1 h2 h3⟩

/-- Witness for C12: the report of the sample result, and of a run on the sample files. -/
theorem report_groups_witness :
    report sampleResult = ["D old 1", "A new 1", "Mv bar 3 -> 2", "M^ foo 1.0 -> 2.0"] ∧
      (report sampleResult).length = 1 + 1 + 2 ∧
      (main sampleFs sampleRun ["prog", "A", "B"]).stdout =
        ["D old 1", "A new 1", "Mv bar 3 -> 2", "M^ foo 1.0 -> 2.0"] := by
  refine ⟨by decide, ?_, by decide⟩
  rw [(report_groups sampleResult).2.1]
  decide

/-- The text of a `D` or `A` line. -/
theorem println_three (tag k v : String) :
    println [tag, k, v] = tag ++ " " ++ k ++ " " ++ v := by
  simp only [println, String.append_assoc]

/-- The text of an `M` line. -/
theorem println_changed (tag k x y : String) :
    println [tag, k, x, "->", y] = tag ++ " " ++ k ++ " " ++ x ++ " -> " ++ y := by
  have h : (" -> " : String) = " " ++ ("->" ++ " ") := by decide
  simp only [println, String.append_assoc, h]

/-- Every key of `Changed` has its line in the report. -/
theorem changedLine_mem_report (d : DiffResult) (k : String) (hk : k ∈ d.Changed) :
    changedLine d k ∈ report d := by
  unfold report
  refine List.mem_append_right _ (List.mem_map_of_mem _ ?_)
  exact (sortStrings_perm _).mem_iff.mpr (AList.mem_keys.mp hk)

/-- C13: the line printed for an entry `(k, From, To, Upgrade)` of `Changed` is
`M^ k From -> To` when `Upgrade` is true and `Mv k From -> To` when it is false,
with single spaces between the tokens, and it is a line of the report.  On the
example of the specification (`foo 2.0` in A, `foo 1.0` in B, a comparator that
denies `2.0 < 1.0`) the output is `Mv foo 2.0 -> 1.0`. -/
theorem changedLine_format :
    (∀ (d : DiffResult) (k : String) (vc : VersionChanged),
      d.Changed.lookup k = some vc →
        changedLine d k ∈ report d ∧
        (vc.Upgrade = true →
          changedLine d k = "M^" ++ " " ++ k ++ " " ++ vc.From ++ " -> " ++ vc.To) ∧
        (vc.Upgrade = false →
          changedLine d k = "Mv" ++ " " ++ k ++ " " ++ vc.From ++ " -> " ++ vc.To)) ∧
    (main downgradeFs (fun _ _ => some "exit status 1") ["prog", "A", "B"]).stdout =
      ["Mv foo 2.0 -> 1.0"] := by
  refine ⟨?_, by decide⟩
  intro d k vc hk
  refine ⟨changedLine_mem_report d k ((mem_iff_lookup _ k).mpr ⟨vc, hk⟩), ?_, ?_⟩
  · intro hu
    unfold changedLine
    simp only [hk, Option.getD_some, hu, ↓reduceIte]
    exact println_changed _ _ _ _
  · intro hu
    unfold changedLine
    simp only [hk, Option.getD_some, hu, Bool.false_eq_true, ↓reduceIte]
    exact println_changed _ _ _ _

/-- Witness for C13: an upgrade entry and a downgrade entry of a sample result. -/
theorem changedLine_format_witness :
    changedLine sampleResult "foo" = "M^ foo 1.0 -> 2.0" ∧
      changedLine sampleResult "bar" = "Mv bar 3 -> 2" :=
  ⟨((changedLine_format.1 sampleResult "foo"
      { From := "1.0", To := "2.0", Upgrade := true } (by decide)).2.1 rfl).trans (by decide),
    ((changedLine_format.1 sampleResult "bar"
      { From := "3", To := "2", Upgrade := false } (by decide)).2.2 rfl).trans (by decide)⟩

/-- Every key of `Deleted` has its line in the report. -/
theorem deletedLine_mem_report (d : DiffResult) (k : String) (hk : k ∈ d.Deleted) :
    deletedLine d k ∈ report d := by
  unfold report
  refine List.mem_append_left _ (List.mem_append_left _ (List.mem_map_of_mem _ ?_))
  exact (sortStrings_perm _).mem_iff.mpr (AList.mem_keys.mp hk)

/-- Every key of `Added` has its line in the report. -/
theorem addedLine_mem_report (d : DiffResult) (k : String) (hk : k ∈ d.Added) :
    addedLine d k ∈ report d := by
  unfold report
  refine List.mem_append_left _ (List.mem_append_right _ (List.mem_map_of_mem _ ?_))
  exact (sortStrings_perm _).mem_iff.mpr (AList.mem_keys.mp hk)

/-- A key of `a` absent from `b` is in `deleted` with its version in `a`. -/
theorem deleted_lookup_of (a b : StrMap) (n v : String) (h1 : a.lookup n = some v)
    (h2 : n ∉ b) : (diffVersionInfo a b).1.lookup n = some v := by
  rw [deleted_lookup, h1, AList.lookup_eq_none.mpr h2]
  simp

/-- A key of `b` absent from `a` is in `added` with its version in `b`. -/
theorem added_lookup_of (a b : StrMap) (n v : String) (h1 : b.lookup n = some v)
    (h2 : n ∉ a) : (diffVersionInfo a b).2.1.lookup n = some v := by
  rw [added_lookup, h1, AList.lookup_eq_none.mpr h2]
  simp

/-- C14: when the two files parse into `a` and `b`, the output of `main` has
the line `D n v` for every key `n` of `a` absent from `b` with `a[n] = v`, and
the line `A n v` for every key `n` of `b` absent from `a` with `b[n] = v`. -/
theorem main_reports_deleted_added (fs : String → FileRead) (run : Comparator)
    (prog fileA fileB : String) (a b : StrMap)
    (ha : getMap (fs fileA) = .ok a) (hb : getMap (fs fileB) = .ok b) :
    (∀ n v, a.lookup n = some v → n ∉ b →
      "D" ++ " " ++ n ++ " " ++ v ∈ (main fs run [prog, fileA, fileB]).stdout) ∧
    (∀ n v, b.lookup n = some v → n ∉ a →
      "A" ++ " " ++ n ++ " " ++ v ∈ (main fs run [prog, fileA, fileB]).stdout) := by
  have hd := diff_of_ok fs run fileA fileB a b ha hb
  have hm := main_of_ok fs run prog fileA fileB _ (by rw [hd])
  rw [hm]
  constructor
  · intro n v h1 h2
    have hl := deleted_lookup_of a b n v h1 h2
    have hmem := deletedLine_mem_report
      { Deleted := (diffVersionInfo a b).1, Added := (diffVersionInfo a b).2.1,
        Changed := (diffVersionInfo a b).2.2.entries.foldl (diffStepChanged run) ∅ } n
      ((mem_iff_lookup _ n).mpr ⟨v, hl⟩)
    unfold deletedLine at hmem
    simp only [hl, Option.getD_some, println_three] at hmem
    exact hmem
  · intro n v h1 h2
    have hl := added_lookup_of a b n v h1 h2
    have hmem := addedLine_mem_report
      { Deleted := (diffVersionInfo a b).1, Added := (diffVersionInfo a b).2.1,
        Changed := (diffVersionInfo a b).2.2.entries.foldl (diffStepChanged run) ∅ } n
      ((mem_iff_lookup _ n).mpr ⟨v, hl⟩)
    unfold addedLine at hmem
    simp only [hl, Option.getD_some, println_three] at hmem
    exact hmem

/-- Witness for C14, the example of the specification: `bar 1.0` is in A only
and `baz 1.0` in B only, so the output has `D bar 1.0` and `A baz 1.0`. -/
theorem main_reports_deleted_added_witness :
    "D bar 1.0" ∈ (main barBazFs sampleRun ["prog", "A", "B"]).stdout ∧
      "A baz 1.0" ∈ (main barBazFs sampleRun ["prog", "A", "B"]).stdout := by
  have h := main_reports_deleted_added barBazFs sampleRun "prog" "A" "B"
    (scanLines ["ii bar 1.0", "ii foo 1"]) (scanLines ["ii baz 1.0", "ii foo 1"]) rfl rfl
  exact ⟨h.1 "bar" "1.0" (by decide) (by decide), h.2 "baz" "1.0" (by decide) (by decide)⟩

/-! ## The whole pipeline on the example of the specification -/

/-- Counterexample for C15: on the listings `pkgname ii foo 1.0` and
`pkgname ii foo 2.0`, taken as the text of one line each, field 0 is `pkgname`
and not `ii`; both listings parse to the empty map and nothing is printed, even
under a comparator that always succeeds. -/
theorem pipeline_example_as_written :
    fields "pkgname ii foo 1.0" = ["pkgname", "ii", "foo", "1.0"] ∧
      getMap (.scanned ["pkgname ii foo 1.0"] none) = .ok ∅ ∧
      (main asWrittenFs (fun _ _ => none) ["prog", "A", "B"]).stdout = [] ∧
      (main asWrittenFs (fun _ _ => none) ["prog", "A", "B"]).stdout ≠
        ["M^ foo 1.0 -> 2.0"] :=
  ⟨by decide, rfl, by decide, by decide⟩

/-- C15, amended: with listing A the single line `ii foo 1.0` and listing B the
single line `ii foo 2.0` (the status `ii` in field 0) and a comparator that
confirms `1.0 < 2.0`, the pipeline (parse A, parse B, diff, classify, report)
prints exactly the one line `M^ foo 1.0 -> 2.0`, opens the two files in order
and does not end in `log.Fatal`. -/
theorem pipeline_example (fs : String → FileRead) (run : Comparator)
    (prog fileA fileB : String)
    (hA : fs fileA = .scanned ["ii foo 1.0"] none)
    (hB : fs fileB = .scanned ["ii foo 2.0"] none)
    (hrun : run "1.0" "2.0" = none) :
    main fs run [prog, fileA, fileB] =
      { opened := [fileA, fileB], stdout := ["M^ foo 1.0 -> 2.0"], fatal := none } := by
  have ha : getMap (fs fileA) = .ok (scanLines ["ii foo 1.0"]) := by rw [hA]; rfl
  have hb : getMap (fs fileB) = .ok (scanLines ["ii foo 2.0"]) := by rw [hB]; rfl
  have hd := diff_of_ok fs run fileA fileB _ _ ha hb
  have hentries : (diffVersionInfo (scanLines ["ii foo 1.0"])
      (scanLines ["ii foo 2.0"])).2.2.entries = [⟨"foo", ("1.0", "2.0")⟩] := by decide
  have hchanged : (diffVersionInfo (scanLines ["ii foo 1.0"])
      (scanLines ["ii foo 2.0"])).2.2.entries.foldl (diffStepChanged run) ∅ =
      (∅ : VcMap).insert "foo" { From := "1.0", To := "2.0", Upgrade := true } := by
    rw [hentries]
    simp [diffStepChanged, compare_fresh, hrun]
  rw [hchanged] at hd
  rw [main_of_ok fs run prog fileA fileB _ (by rw [hd]), hd]
  simp only [Outcome.mk.injEq, and_true, true_and]
  decide

/-- Witness for C15 amended: a file system with the two one-line listings and
the sample comparator, which succeeds on `1.0 < 2.0`. -/
theorem pipeline_example_witness :
    main amendedFs sampleRun ["prog", "A", "B"] =
      { opened := ["A", "B"], stdout := ["M^ foo 1.0 -> 2.0"], fatal := none } :=
  pipeline_example amendedFs sampleRun "prog" "A" "B" rfl rfl (by decide)

/-! ## Checks on concrete inputs -/

/-- Runs of spaces and tabs separate fields. -/
theorem fields_sample :
    fields "ii  foo:amd64\t1.0 some text" = ["ii", "foo:amd64", "1.0", "some", "text"] := by
  decide

/-- A blank line has no field. -/
theorem fields_blank : fields "    " = [] := by decide

/-- Only the first colon splits. -/
theorem splitPkgNameAndArch_sample :
    splitPkgNameAndArch "foo:i386:x" = ("foo", "i386:x") ∧
      splitPkgNameAndArch "foo" = ("foo", "") := by
  decide

/-- The last qualifying row wins; other rows are skipped. -/
theorem scanLines_sample :
    (scanLines ["ii foo 1.0", "rc bar 2", "ii foo:i386 3", "", "ii foo:amd64 4", "ii"]).entries
      = [⟨"foo", "4"⟩] := by
  decide

/-- The differ on the two sample listings. -/
theorem diffVersionInfo_sample :
    (diffVersionInfo sampleA sampleB).1.entries = [⟨"a", "1"⟩] ∧
      (diffVersionInfo sampleA sampleB).2.1.entries = [⟨"c", "1"⟩] ∧
      (diffVersionInfo sampleA sampleB).2.2.entries = [⟨"b", ("1", "2")⟩] := by
  decide

/-- A run on two one-line listings with a comparator that always succeeds. -/
theorem main_sample :
    main (fun path => if path = "A" then .scanned ["ii foo 1.0", "ii bar 1"] none
        else .scanned ["ii foo 2.0", "ii baz 3"] none)
      (fun _ _ => none) ["prog", "A", "B"] =
      { opened := ["A", "B"], stdout := ["D bar 1", "A baz 3", "M^ foo 1.0 -> 2.0"],
        fatal := none } := by
  decide

/-- Applying the diff of the two sample listings to the old one gives the new one. -/
theorem applyDiff_sample :
    (applyDiff sampleA (diffVersionInfo sampleA sampleB).1 (diffVersionInfo sampleA sampleB).2.1
      (diffVersionInfo sampleA sampleB).2.2).entries.Perm sampleB.entries := by
  decide

end DiffDebianPkgs
